import Mathlib

/-!
Verification of the statement splitter and configuration validation of the
thin-cross-db-client repository (`src/main.go`).

The splitter `splitSQLStatements` (src/main.go, lines 274-396) is embedded
below as a pure function over `List Char`.  The Go code reads runes from a
`bufio.Reader` over an in-memory string; the embedding models that reader as
the list of remaining characters, `Peek n` as `List.take n`, and consuming a
rune as taking the head.  Byte lengths coincide with character counts on the
ASCII fragment that the scanner's multi-character delimiters live in, and
`strings.TrimSpace` is modelled on the six ASCII whitespace characters that
`unicode.IsSpace` recognises in ASCII.
-/

namespace CrossDB

/-- The mutable scanner variables of the Go loop (src/main.go lines 278-280):
`inSingle`, `inDouble`, `inLineComment`, `inBlockComment`, `dollarTag`
(empty list = no active dollar quote, mirroring the empty Go string). -/
structure SplitState where
  inSingle : Bool
  inDouble : Bool
  inLineComment : Bool
  inBlockComment : Bool
  dollarTag : List Char
deriving DecidableEq, Repr

/-- The initial scanner state: all flags false, no dollar tag. -/
def initState : SplitState := ⟨false, false, false, false, []⟩

/-- The scanner is in the `Normal` state of the specification: no quote,
comment or dollar-quote context is active. -/
def SplitState.normal (st : SplitState) : Prop :=
  st.inSingle = false ∧ st.inDouble = false ∧ st.inLineComment = false ∧
    st.inBlockComment = false ∧ st.dollarTag = []

instance (st : SplitState) : Decidable st.normal := by
  unfold SplitState.normal
  infer_instance

/-- ASCII whitespace as recognised by Go's `unicode.IsSpace` (the character
class used by `strings.TrimSpace` at src/main.go lines 382 and 392). -/
def goIsSpace (c : Char) : Bool :=
  c = ' ' || c = '\t' || c = '\n' || c = '\x0b' || c = '\x0c' || c = '\r'

/-- `strings.TrimSpace`: drop leading and trailing whitespace. -/
def trim (l : List Char) : List Char :=
  ((l.dropWhile goIsSpace).reverse.dropWhile goIsSpace).reverse

/-- Flush step shared by the `;` boundary (lines 382-386) and the final
flush (lines 392-394): trim the buffer and append it to the output when
non-empty. -/
def flushInto (buf : List Char) (acc : List (List Char)) : List (List Char) :=
  if trim buf = [] then acc else acc ++ [trim buf]

/-- The dollar-tag detection loop (src/main.go lines 352-368): walk the
peeked window accumulating `tag`; a second `$` completes the tag, a space,
newline or tab aborts, and an exhausted window finds nothing. -/
def dollarTagScan (acc : List Char) : List Char → Option (List Char)
  | [] => none
  | r :: rs =>
    if r = '$' then some (acc ++ [r])
    else if r = ' ' || r = '\n' || r = '\t' then none
    else dollarTagScan (acc ++ [r]) rs

/-- Result of one iteration of the Go scanning loop: `emit k app st'`
consumes the current character plus `k` further characters, appends `app` to
the statement buffer and moves to state `st'`; `cut st'` is the statement
boundary of lines 381-388 (the semicolon is consumed, nothing is appended,
the buffer is flushed). -/
inductive StepRes where
  | emit (k : Nat) (app : List Char) (st' : SplitState)
  | cut (st' : SplitState)
deriving DecidableEq, Repr

/-- The quote toggles of src/main.go lines 375-379. -/
def toggleQuotes (ch : Char) (st : SplitState) : SplitState :=
  if ch = '\'' ∧ ¬st.inDouble = true then { st with inSingle := !st.inSingle }
  else if ch = '"' ∧ ¬st.inSingle = true then { st with inDouble := !st.inDouble }
  else st

/-- The bottom of the loop body (src/main.go lines 375-389): quote toggles
followed by the semicolon boundary test, reached when no comment or dollar
context is active and no opener matched. -/
def stepTail (ch : Char) (st : SplitState) : StepRes :=
  if ch = ';' ∧ (toggleQuotes ch st).inSingle = false ∧ (toggleQuotes ch st).inDouble = false ∧
      (toggleQuotes ch st).dollarTag = [] ∧ (toggleQuotes ch st).inLineComment = false ∧
      (toggleQuotes ch st).inBlockComment = false then
    .cut (toggleQuotes ch st)
  else .emit 0 [ch] (toggleQuotes ch st)

/-- One iteration of the Go loop body (src/main.go lines 282-390) on current
character `ch`, remaining input `rest` and state `st`. -/
def step (ch : Char) (rest : List Char) (st : SplitState) : StepRes :=
  if st.inLineComment = true then
    .emit 0 [ch] { st with inLineComment := ch != '\n' }
  else if st.inBlockComment = true then
    if ch = '*' ∧ rest.take 1 = ['/'] then
      .emit 1 [ch, '/'] { st with inBlockComment := false }
    else .emit 0 [ch] st
  else if st.dollarTag ≠ [] then
    if ch = '$' ∧ rest.take (st.dollarTag.length - 1) = st.dollarTag.tail then
      .emit (st.dollarTag.length - 1) (ch :: st.dollarTag.tail) { st with dollarTag := [] }
    else .emit 0 [ch] st
  else if st.inSingle = false ∧ st.inDouble = false ∧ ch = '-' ∧
      (rest.take 2 = ['-', ' '] ∨ rest.take 2 = ['-', '-']) then
    .emit 1 (ch :: rest.take 1) { st with inLineComment := true }
  else if st.inSingle = false ∧ st.inDouble = false ∧ ch = '/' ∧ rest.take 1 = ['*'] then
    .emit 1 (ch :: rest.take 1) { st with inBlockComment := true }
  else if st.inSingle = false ∧ st.inDouble = false ∧ ch = '$' then
    match dollarTagScan ['$'] (rest.take 64) with
    | some tag => .emit (tag.length - 1) (ch :: rest.take (tag.length - 1)) { st with dollarTag := tag }
    | none => stepTail ch st
  else stepTail ch st

/-- The scanning loop of `splitSQLStatements`, driven by a fuel parameter
that the top-level entry sets to the input length (each iteration consumes
at least one character, so that fuel is never exhausted).  `buf` is the
statement buffer `sb`, `acc` the accumulated `statements`; reaching the end
of the input performs the final flush of lines 392-394. -/
def go : Nat → List Char → SplitState → List Char → List (List Char) → List (List Char)
  | _, [], _, buf, acc => flushInto buf acc
  | 0, _ :: _, _, buf, acc => flushInto buf acc
  | n + 1, ch :: rest, st, buf, acc =>
    match step ch rest st with
    | .emit k app st' => go n (rest.drop k) st' (buf ++ app) acc
    | .cut st' => go n rest st' [] (flushInto buf acc)

/-- `splitSQLStatements` (src/main.go lines 274-396) over a list of
characters. -/
def splitSQLStatements (input : List Char) : List (List Char) :=
  go input.length input initState [] []

example : splitSQLStatements "a;b".data = ["a".data, "b".data] := by decide

example : splitSQLStatements "select ';' as a;".data = ["select ';' as a".data] := by decide

example : splitSQLStatements "$t$ a;b $t$; x".data = ["$t$ a;b $t$".data, "x".data] := by decide

/-- On a semicolon the loop body flushes exactly when no suspended context is
active, and otherwise appends the semicolon with the state unchanged. -/
theorem step_semicolon (rest : List Char) (st : SplitState) :
    step ';' rest st = if st.normal then .cut st else .emit 0 [';'] st := by
  obtain ⟨s, d, lc, bc, tag⟩ := st
  simp only [step, stepTail, SplitState.normal]
  cases lc <;> cases bc <;> cases s <;> cases d <;> cases tag <;> simp [toggleQuotes]

/-- C1: for every scanner configuration, a semicolon is a statement boundary
(the trimmed buffer is flushed and the semicolon is not appended) if and only
if the scanner is in the Normal state; in every suspended state (quote,
line/block comment or dollar-quoted body) the semicolon is appended verbatim
to the buffer, the state is unchanged, and no split happens. -/
theorem semicolon_boundary_iff_normal (n : Nat) (rest : List Char) (st : SplitState)
    (buf : List Char) (acc : List (List Char)) :
    go (n + 1) (';' :: rest) st buf acc =
      if st.normal then go n rest st [] (flushInto buf acc)
      else go n rest st (buf ++ [';']) acc := by
  by_cases h : st.normal <;> simp [go, step_semicolon, h]

/-- C2 evidence: the Go scanner enters a line comment only when `--` is
followed by a space or a third dash.  On `--x;1` the dashes are treated as
ordinary characters and the semicolon splits, against the specification (and
the repository's sibling implementation, which checks for `--` alone). -/
theorem lineComment_detection_requires_space_or_dash :
    splitSQLStatements "--x;1".data = ["--x".data, "1".data] ∧
      splitSQLStatements "-- x;1".data = ["-- x;1".data] ∧
      step '-' "-x;1".data initState = .emit 0 ['-'] initState ∧
      step '-' "- x;1".data initState =
        .emit 1 ['-', '-'] { initState with inLineComment := true } := by
  decide

/-- C3: the four-line script of the repository's test splits into exactly the
two statements, the first the line comment followed by the select, the second
the block comment followed by the update. -/
theorem four_line_script_two_statements :
    splitSQLStatements
        ("-- keep ; in comment\nselect ';' as a;\n/* block ; comment */\nupdate users set name = 'x;y' where id = 1;\n").data =
      ["-- keep ; in comment\nselect ';' as a".data,
        "/* block ; comment */\nupdate users set name = 'x;y' where id = 1".data] := by
  decide

/-- Modelled from the specification's wording for C5: identical to `step`
except in the `DollarQuoted(tag)` close test, which here follows the spec:
upon seeing `$`, look ahead `len(tag)-2` further characters; if they equal the
tag stripped of its leading and trailing `$`, consume and append the remaining
`len(tag)-1` characters and transition to Normal. -/
def stepC5Spec (ch : Char) (rest : List Char) (st : SplitState) : StepRes :=
  if st.inLineComment = true then
    .emit 0 [ch] { st with inLineComment := ch != '\n' }
  else if st.inBlockComment = true then
    if ch = '*' ∧ rest.take 1 = ['/'] then
      .emit 1 [ch, '/'] { st with inBlockComment := false }
    else .emit 0 [ch] st
  else if st.dollarTag ≠ [] then
    if ch = '$' ∧ rest.take (st.dollarTag.length - 2) = st.dollarTag.tail.dropLast then
      .emit (st.dollarTag.length - 1) (ch :: rest.take (st.dollarTag.length - 1)) { st with dollarTag := [] }
    else .emit 0 [ch] st
  else if st.inSingle = false ∧ st.inDouble = false ∧ ch = '-' ∧
      (rest.take 2 = ['-', ' '] ∨ rest.take 2 = ['-', '-']) then
    .emit 1 (ch :: rest.take 1) { st with inLineComment := true }
  else if st.inSingle = false ∧ st.inDouble = false ∧ ch = '/' ∧ rest.take 1 = ['*'] then
    .emit 1 (ch :: rest.take 1) { st with inBlockComment := true }
  else if st.inSingle = false ∧ st.inDouble = false ∧ ch = '$' then
    match dollarTagScan ['$'] (rest.take 64) with
    | some tag => .emit (tag.length - 1) (ch :: rest.take (tag.length - 1)) { st with dollarTag := tag }
    | none => stepTail ch st
  else stepTail ch st

/-- The scanning loop built on the spec-modelled step `stepC5Spec`. -/
def goC5Spec : Nat → List Char → SplitState → List Char → List (List Char) → List (List Char)
  | _, [], _, buf, acc => flushInto buf acc
  | 0, _ :: _, _, buf, acc => flushInto buf acc
  | n + 1, ch :: rest, st, buf, acc =>
    match stepC5Spec ch rest st with
    | .emit k app st' => goC5Spec n (rest.drop k) st' (buf ++ app) acc
    | .cut st' => goC5Spec n rest st' [] (flushInto buf acc)

/-- The splitter as claim C5 describes the dollar-quote close rule. -/
def splitC5Spec (input : List Char) : List (List Char) :=
  goC5Spec input.length input initState [] []

/-- C5 counterexample: in state `DollarQuoted("$ab$")` at input `$abX`, the
two-character lookahead `ab` equals the tag stripped of both dollar signs, so
the claim's rule closes the quote, while the code compares the three
characters `abX` against `ab$`, fails, and stays inside the quote.  The two
rules therefore split `$ab$$abX; x` differently, and the code yields a single
statement where the claim's rule would split at the semicolon. -/
theorem dollar_close_lookahead_cex :
    splitSQLStatements "$ab$$abX; x".data = ["$ab$$abX; x".data] ∧
      splitC5Spec "$ab$$abX; x".data = ["$ab$$abX".data, "x".data] ∧
      step '$' "abX; x".data ⟨false, false, false, false, "$ab$".data⟩ =
        .emit 0 ['$'] ⟨false, false, false, false, "$ab$".data⟩ ∧
      stepC5Spec '$' "abX; x".data ⟨false, false, false, false, "$ab$".data⟩ =
        .emit 3 "$abX".data ⟨false, false, false, false, []⟩ := by
  decide

/-- C5 amended: while in `DollarQuoted(tag)` the scanner appends every
character; upon seeing `$` it looks ahead `len(tag)-1` further characters, and
if they equal the tag stripped of its leading `$` (the quoted word followed by
the closing `$`) it consumes and appends them and transitions to Normal;
otherwise it remains in `DollarQuoted(tag)` having appended only the single
`$`, the mismatched lookahead left unconsumed. -/
theorem dollar_quoted_step (ch : Char) (rest : List Char) (st : SplitState)
    (hlc : st.inLineComment = false) (hbc : st.inBlockComment = false)
    (htag : st.dollarTag ≠ []) :
    step ch rest st =
      if ch = '$' ∧ rest.take (st.dollarTag.length - 1) = st.dollarTag.tail then
        .emit (st.dollarTag.length - 1) (ch :: st.dollarTag.tail) { st with dollarTag := [] }
      else .emit 0 [ch] st := by
  simp [step, hlc, hbc, htag]

/-- Witness for `dollar_quoted_step` at a concrete suspended configuration. -/
theorem dollar_quoted_step_witness :
    step '$' "ab$x".data ⟨false, false, false, false, "$ab$".data⟩ =
      .emit 3 "$ab$".data ⟨false, false, false, false, []⟩ := by
  rw [dollar_quoted_step '$' "ab$x".data ⟨false, false, false, false, "$ab$".data⟩ rfl rfl
    (by decide)]
  decide

/-- C6: exhausting the input in any scanner state (in particular inside an
unterminated comment, quote or dollar body) raises no error: the buffer is
trimmed and, when non-empty, emitted as the final statement; concretely,
`select 1; /* never closed` yields the two statements `select 1` and
`/* never closed`. -/
theorem eof_flush_lenient :
    (∀ (n : Nat) (st : SplitState) (buf : List Char) (acc : List (List Char)),
        go n [] st buf acc = if trim buf = [] then acc else acc ++ [trim buf]) ∧
      splitSQLStatements "select 1; /* never closed".data =
        ["select 1".data, "/* never closed".data] := by
  constructor
  · intro n st buf acc
    cases n <;> rfl
  · decide

/-- Prepend a character to the first of a list of segments. -/
def consHead (c : Char) : List (List Char) → List (List Char)
  | [] => [[c]]
  | s :: ss => (c :: s) :: ss

/-- The semicolon-separated segments of a script (`n` semicolons give `n + 1`
segments, empty ones included). -/
def segs : List Char → List (List Char)
  | [] => [[]]
  | c :: rest => if c = ';' then [] :: segs rest else consHead c (segs rest)

/-- Prepend a buffer to the first segment. -/
def bufCons (buf : List Char) : List (List Char) → List (List Char)
  | [] => [buf]
  | s :: ss => (buf ++ s) :: ss

/-- The count used by claim C7: semicolons that are followed (anywhere before
the end of the script) by at least one non-whitespace character. -/
def semisFollowedByContent : List Char → Nat
  | [] => 0
  | c :: rest =>
    (if c = ';' ∧ rest.any (fun x => !goIsSpace x) then 1 else 0) + semisFollowedByContent rest

theorem consHead_ne_nil (c : Char) (l : List (List Char)) : consHead c l ≠ [] := by
  cases l <;> simp [consHead]

theorem segs_ne_nil (l : List Char) : segs l ≠ [] := by
  cases l with
  | nil => simp [segs]
  | cons c rest =>
    simp only [segs]
    split
    · simp
    · exact consHead_ne_nil c (segs rest)

theorem bufCons_consHead (buf : List Char) (c : Char) (l : List (List Char)) :
    bufCons buf (consHead c l) = bufCons (buf ++ [c]) l := by
  cases l <;> simp [bufCons, consHead]

theorem isEmpty_false_of_ne {l : List Char} (h : l ≠ []) : l.isEmpty = false := by
  cases l with
  | nil => exact absurd rfl h
  | cons a t => rfl

/-- On a script avoiding quote, dollar and comment characters the scanner
stays in the initial state and reduces to splitting on semicolons. -/
theorem go_plain (inp : List Char) : ∀ (n : Nat) (buf : List Char) (acc : List (List Char)),
    inp.length ≤ n → (∀ c ∈ inp, c ≠ '\'' ∧ c ≠ '"' ∧ c ≠ '$' ∧ c ≠ '-' ∧ c ≠ '/') →
    go n inp initState buf acc =
      acc ++ ((bufCons buf (segs inp)).map trim).filter (fun s => !s.isEmpty) := by
  induction inp with
  | nil =>
    intro n buf acc _ _
    have : go n [] initState buf acc = flushInto buf acc := by cases n <;> rfl
    rw [this]
    simp only [segs, bufCons, List.append_nil, List.map_cons, List.map_nil, flushInto]
    by_cases ht : trim buf = []
    · simp [ht, List.filter]
    · simp [ht, List.filter, isEmpty_false_of_ne ht]
  | cons c rest ih =>
    intro n buf acc hn hp
    match n with
    | 0 => exact absurd hn (by simp)
    | m + 1 =>
      obtain ⟨h1, h2, h3, h4, h5⟩ := hp c (by simp)
      have hrest : ∀ x ∈ rest, x ≠ '\'' ∧ x ≠ '"' ∧ x ≠ '$' ∧ x ≠ '-' ∧ x ≠ '/' :=
        fun x hx => hp x (by simp [hx])
      have hm : rest.length ≤ m := by simpa using hn
      by_cases h : c = ';'
      · subst h
        have hstep : step ';' rest initState = .cut initState := by
          simp [step, stepTail, toggleQuotes, initState]
        simp only [go, hstep]
        rw [ih m [] (flushInto buf acc) hm hrest]
        obtain ⟨s, ss, hss⟩ : ∃ s ss, segs rest = s :: ss := by
          cases hsr : segs rest with
          | nil => exact absurd hsr (segs_ne_nil rest)
          | cons s ss => exact ⟨s, ss, rfl⟩
        have hsegs : segs (';' :: rest) = [] :: s :: ss := by simp [segs, hss]
        rw [hsegs, hss]
        simp only [bufCons, List.nil_append, List.append_nil, List.map_cons, flushInto]
        by_cases ht : trim buf = []
        · simp [ht, List.filter]
        · simp [ht, List.filter_cons, isEmpty_false_of_ne ht]
      · have hstep : step c rest initState = .emit 0 [c] initState := by
          simp [step, stepTail, toggleQuotes, initState, h1, h2, h3, h4, h5, h]
        simp only [go, hstep, List.drop_zero]
        rw [ih m (buf ++ [c]) acc hm hrest]
        have hsegs : segs (c :: rest) = consHead c (segs rest) := by simp [segs, h]
        rw [hsegs, bufCons_consHead]

/-- C7 counterexample: the script `a;b` contains no comment, quote or dollar
construct; it has one semicolon followed by non-whitespace content, yet the
splitter returns the two statements `a` and `b`. -/
theorem statement_count_cex :
    (∀ c ∈ "a;b".data, c ≠ '\'' ∧ c ≠ '"' ∧ c ≠ '$' ∧ c ≠ '-' ∧ c ≠ '/') ∧
      splitSQLStatements "a;b".data = ["a".data, "b".data] ∧
      (splitSQLStatements "a;b".data).length = 2 ∧
      semisFollowedByContent "a;b".data = 1 ∧
      (splitSQLStatements "a;b".data).length ≠ semisFollowedByContent "a;b".data := by
  decide

/-- C7 amended: for every script consisting only of statements separated by
semicolons, with no comment, quote, or dollar characters, the number of
statements returned by the splitter equals the number of semicolon-separated
segments of the script whose content is not whitespace-only (so empty
segments, trailing or interior, are dropped). -/
theorem plain_script_statement_count (inp : List Char)
    (h : ∀ c ∈ inp, c ≠ '\'' ∧ c ≠ '"' ∧ c ≠ '$' ∧ c ≠ '-' ∧ c ≠ '/') :
    (splitSQLStatements inp).length =
      ((segs inp).filter (fun s => !(trim s).isEmpty)).length := by
  unfold splitSQLStatements
  rw [go_plain inp inp.length [] [] le_rfl h]
  obtain ⟨s, ss, hss⟩ : ∃ s ss, segs inp = s :: ss := by
    cases hsr : segs inp with
    | nil => exact absurd hsr (segs_ne_nil inp)
    | cons s ss => exact ⟨s, ss, rfl⟩
  rw [hss, bufCons, List.nil_append, List.nil_append, ← hss, List.filter_map]
  rw [List.length_map]
  rfl

/-- Witness for `plain_script_statement_count` at the script `a;b`. -/
theorem plain_script_statement_count_witness :
    (splitSQLStatements "a;b".data).length =
      ((segs "a;b".data).filter (fun s => !(trim s).isEmpty)).length :=
  plain_script_statement_count "a;b".data (by decide)

/-- The `config` struct (src/main.go lines 20-28). -/
structure Config where
  engine : String
  host : String
  port : Int
  username : String
  password : String
  dbname : String
  sqlPath : String
deriving DecidableEq, Repr

/-- The flag defaults declared in `main` (src/main.go lines 32-38): empty
strings everywhere except username `db_admin`, port 0. -/
def defaultFlagConfig : Config := ⟨"", "", 0, "db_admin", "", "", ""⟩

/-- `strings.ToLower`, character-wise (faithful on the ASCII engine names the
code compares against). -/
def toLowerStr (s : String) : String := ⟨s.data.map Char.toLower⟩

/-- `defaultPort` (src/main.go lines 117-128). -/
def defaultPort (engine : String) : Int :=
  if toLowerStr engine = "oracle" then 1521
  else if toLowerStr engine = "sqlserver" then 1433
  else if toLowerStr engine = "postgres" then 5432
  else 0

/-- `config.validate` (src/main.go lines 93-115): reject missing required
fields, then reject unsupported engines (case-insensitively), then default a
zero port.  The Go method mutates its receiver and returns `error`; here the
updated config is returned in the `ok` case. -/
def validate (c : Config) : Except String Config :=
  if c.engine = "" then .error "engine is required"
  else if c.host = "" then .error "host is required"
  else if c.dbname = "" then .error "dbname is required"
  else if c.sqlPath = "" then .error "sql path is required"
  else if toLowerStr c.engine = "oracle" ∨ toLowerStr c.engine = "sqlserver" ∨
      toLowerStr c.engine = "postgres" then
    .ok (if c.port = 0 then { c with port := defaultPort c.engine } else c)
  else .error ("unsupported engine: " ++ c.engine)

/-- C9: validation accepts a configuration exactly when engine, host, dbname
and sql path are present and the engine is (case-insensitively) one of
oracle, sqlserver, postgres; on success only the port may change, becoming
the engine default (1521 / 1433 / 5432) exactly when it was unspecified
(zero); and the flag-declared username default is `db_admin`. -/
theorem config_validation (c : Config) :
    ((∃ c', validate c = .ok c') ↔
      (c.engine ≠ "" ∧ c.host ≠ "" ∧ c.dbname ≠ "" ∧ c.sqlPath ≠ "" ∧
        (toLowerStr c.engine = "oracle" ∨ toLowerStr c.engine = "sqlserver" ∨
          toLowerStr c.engine = "postgres"))) ∧
    (∀ c', validate c = .ok c' →
      c'.port = (if c.port = 0 then defaultPort c.engine else c.port) ∧
      c'.engine = c.engine ∧ c'.host = c.host ∧ c'.username = c.username ∧
      c'.password = c.password ∧ c'.dbname = c.dbname ∧ c'.sqlPath = c.sqlPath) ∧
    defaultPort "oracle" = 1521 ∧ defaultPort "sqlserver" = 1433 ∧
    defaultPort "postgres" = 5432 ∧ defaultPort "OrAcLe" = 1521 ∧
    defaultFlagConfig.username = "db_admin" := by
  refine ⟨⟨?_, ?_⟩, ?_, by decide, by decide, by decide, by decide, by decide⟩
  · rintro ⟨c', hc⟩
    unfold validate at hc
    split_ifs at hc with h1 h2 h3 h4 h5 <;> simp_all
  · rintro ⟨h1, h2, h3, h4, h5⟩
    unfold validate
    rw [if_neg h1, if_neg h2, if_neg h3, if_neg h4, if_pos h5]
    exact ⟨_, rfl⟩
  · intro c' hc
    unfold validate at hc
    split_ifs at hc with h1 h2 h3 h4 h5 hp <;> try simp_all
    subst hc
    simp

/-- Witness for `config_validation`: a postgres configuration with
unspecified port validates and is defaulted to port 5432. -/
theorem config_validation_witness :
    ∃ c' : Config, validate ⟨"postgres", "h", 0, "db_admin", "", "d", "s.sql"⟩ = .ok c' ∧
      c'.port = 5432 := by
  have h := (config_validation ⟨"postgres", "h", 0, "db_admin", "", "d", "s.sql"⟩).2.1
  have hv : validate ⟨"postgres", "h", 0, "db_admin", "", "d", "s.sql"⟩ =
      .ok ⟨"postgres", "h", 5432, "db_admin", "", "d", "s.sql"⟩ := by
    have hl : toLowerStr "postgres" = "postgres" := by decide
    simp [validate, hl, defaultPort]
  refine ⟨_, hv, ?_⟩
  rw [(h _ hv).1]
  decide

/-- Rebuild a script from the raw buffer contents between statement
boundaries, reinserting the boundary semicolons that the scanner dropped. -/
def joinSemis : List (List Char) → List Char
  | [] => []
  | [r] => r
  | r :: rs => r ++ ';' :: joinSemis rs

/-- Every `emit` outcome of the loop body appends exactly the current
character followed by the first `k` characters of the remaining input. -/
theorem step_emit_app (ch : Char) (rest : List Char) (st : SplitState) (k : Nat)
    (app : List Char) (st' : SplitState) (h : step ch rest st = .emit k app st') :
    app = ch :: rest.take k := by
  unfold step stepTail at h
  repeat' split at h
  all_goals simp_all
  all_goals try (obtain ⟨rfl, rfl, rfl⟩ := h)
  all_goals try simp_all

/-- Every `emit` outcome of the loop body appends exactly the characters it
consumes. -/
theorem step_emit_consumes (ch : Char) (rest : List Char) (st : SplitState) (k : Nat)
    (app : List Char) (st' : SplitState) (h : step ch rest st = .emit k app st') :
    app ++ rest.drop k = ch :: rest := by
  rw [step_emit_app ch rest st k app st' h]
  simp only [List.cons_append, List.take_append_drop]

/-- A `cut` outcome of the loop body happens only on a semicolon and leaves
the scanner state unchanged. -/
theorem step_cut_semicolon (ch : Char) (rest : List Char) (st st' : SplitState)
    (h : step ch rest st = .cut st') : ch = ';' ∧ st' = st := by
  unfold step stepTail at h
  repeat' split at h
  all_goals try (simp_all)
  rw [← h]
  simp [toggleQuotes]

/-- Scan decomposition: the input splits as raw buffer contents joined by the
boundary semicolons, and the output is those raw buffers trimmed, with the
whitespace-only ones dropped. -/
theorem go_decomp : ∀ (n : Nat) (inp : List Char) (st : SplitState) (buf : List Char)
    (acc : List (List Char)), inp.length ≤ n →
    ∃ raws : List (List Char), raws ≠ [] ∧ buf ++ inp = joinSemis raws ∧
      go n inp st buf acc = acc ++ (raws.map trim).filter (fun s => !s.isEmpty) := by
  intro n
  induction n with
  | zero =>
    intro inp st buf acc hn
    obtain rfl : inp = [] := List.length_eq_zero.mp (Nat.le_zero.mp hn)
    refine ⟨[buf], by simp, by simp [joinSemis], ?_⟩
    simp only [go, flushInto, List.map_cons, List.map_nil, List.filter]
    by_cases ht : trim buf = []
    · simp [ht]
    · simp [ht, isEmpty_false_of_ne ht]
  | succ m ih =>
    intro inp st buf acc hn
    match inp with
    | [] =>
      refine ⟨[buf], by simp, by simp [joinSemis], ?_⟩
      simp only [go, flushInto, List.map_cons, List.map_nil, List.filter]
      by_cases ht : trim buf = []
      · simp [ht]
      · simp [ht, isEmpty_false_of_ne ht]
    | ch :: rest =>
      have hrest : rest.length ≤ m := by simpa using hn
      cases hstep : step ch rest st with
      | emit k app st' =>
        have hdrop : (rest.drop k).length ≤ m :=
          le_trans (by simp) hrest
        obtain ⟨raws, hne, hjoin, hgo⟩ := ih (rest.drop k) st' (buf ++ app) acc hdrop
        refine ⟨raws, hne, ?_, ?_⟩
        · rw [← hjoin, List.append_assoc, step_emit_consumes ch rest st k app st' hstep]
        · rw [← hgo]
          simp [go, hstep]
      | cut st' =>
        obtain ⟨hch, hst⟩ := step_cut_semicolon ch rest st st' hstep
        subst hch
        obtain ⟨raws, hne, hjoin, hgo⟩ := ih rest st' [] (flushInto buf acc) hrest
        obtain ⟨r, rs, rfl⟩ : ∃ r rs, raws = r :: rs := by
          cases raws with
          | nil => exact absurd rfl hne
          | cons r rs => exact ⟨r, rs, rfl⟩
        refine ⟨buf :: r :: rs, by simp, ?_, ?_⟩
        · simp only [joinSemis]
          rw [← hjoin]
          simp
        · rw [go]
          simp only [hstep]
          rw [hgo]
          simp only [List.map_cons, List.filter, flushInto]
          by_cases ht : trim buf = []
          · simp [ht]
          · simp [ht, isEmpty_false_of_ne ht]

/-- The trimmed buffer occurs contiguously inside the buffer. -/
theorem trim_infix_self (l : List Char) : trim l <:+: l := by
  obtain ⟨t, ht⟩ : l.dropWhile goIsSpace <:+ l := List.dropWhile_suffix goIsSpace
  obtain ⟨u, hu⟩ : (l.dropWhile goIsSpace).reverse.dropWhile goIsSpace <:+
      (l.dropWhile goIsSpace).reverse := List.dropWhile_suffix goIsSpace
  refine ⟨t, u.reverse, ?_⟩
  have : (u ++ (l.dropWhile goIsSpace).reverse.dropWhile goIsSpace).reverse =
      (l.dropWhile goIsSpace).reverse.reverse := by rw [hu]
  simp only [List.reverse_append, List.reverse_reverse] at this
  calc t ++ trim l ++ u.reverse
      = t ++ (trim l ++ u.reverse) := by rw [List.append_assoc]
    _ = t ++ l.dropWhile goIsSpace := by rw [trim, this]
    _ = l := ht

/-- Every raw buffer occurs contiguously inside the rebuilt script. -/
theorem mem_joinSemis_infix (r : List Char) : ∀ raws : List (List Char), r ∈ raws →
    r <:+: joinSemis raws := by
  intro raws
  induction raws with
  | nil => intro h; exact absurd h (List.not_mem_nil r)
  | cons a rs ih =>
    intro h
    rcases List.mem_cons.mp h with rfl | hmem
    · cases rs with
      | nil => exact ⟨[], [], by simp [joinSemis]⟩
      | cons b rs' => exact ⟨[], ';' :: joinSemis (b :: rs'), by simp [joinSemis]⟩
    · obtain ⟨u, v, huv⟩ := ih hmem
      cases rs with
      | nil => exact absurd hmem (List.not_mem_nil r)
      | cons b rs' =>
        refine ⟨a ++ ';' :: u, v, ?_⟩
        simp only [joinSemis, ← huv]
        simp

/-- C10: the splitter reorganises its input without inventing, duplicating or
reordering characters: the script is exactly the raw buffer contents joined
by the dropped boundary semicolons, in order; the emitted statements are
those raw segments trimmed (whitespace-only ones dropped), so each statement
is a contiguous substring of the script, distinct statements come from
disjoint regions, and the output order is the textual order. -/
theorem statements_partition_input (input : List Char) :
    ∃ raws : List (List Char), raws ≠ [] ∧ input = joinSemis raws ∧
      splitSQLStatements input = (raws.map trim).filter (fun s => !s.isEmpty) ∧
      ∀ s ∈ splitSQLStatements input, s <:+: input := by
  obtain ⟨raws, hne, hjoin, hgo⟩ := go_decomp input.length input initState [] [] le_rfl
  simp only [List.nil_append] at hjoin hgo
  refine ⟨raws, hne, hjoin, hgo, ?_⟩
  intro s hs
  unfold splitSQLStatements at hs
  rw [hgo] at hs
  obtain ⟨r, hr, hsr⟩ : ∃ r ∈ raws, trim r = s := by
    have := List.of_mem_filter hs
    obtain ⟨r, hr, hsr⟩ := List.mem_map.mp (List.mem_of_mem_filter hs)
    exact ⟨r, hr, hsr⟩
  obtain ⟨u1, v1, h1⟩ : trim r <:+: r := trim_infix_self r
  obtain ⟨u2, v2, h2⟩ : r <:+: joinSemis raws := mem_joinSemis_infix r raws hr
  refine ⟨u2 ++ u1, v1 ++ v2, ?_⟩
  rw [hjoin, ← h2, ← h1, hsr]
  simp [List.append_assoc]

/-- A character source whose reads can fail: `some c` delivers a rune, `none`
is a read error from the underlying reader (after which `bufio` keeps
returning the error).  `srcPeek` models `Peek n`, which returns the bytes
available before the error or end of input. -/
def srcPeek : Nat → List (Option Char) → List Char
  | 0, _ => []
  | _, [] => []
  | _ + 1, none :: _ => []
  | k + 1, some c :: rest => c :: srcPeek k rest

/-- The loop body of `splitSQLStatements` over a fallible source: identical
to `step` with every `Peek` reading through `srcPeek`. -/
def stepOpt (ch : Char) (rest : List (Option Char)) (st : SplitState) : StepRes :=
  if st.inLineComment = true then
    .emit 0 [ch] { st with inLineComment := ch != '\n' }
  else if st.inBlockComment = true then
    if ch = '*' ∧ srcPeek 1 rest = ['/'] then
      .emit 1 [ch, '/'] { st with inBlockComment := false }
    else .emit 0 [ch] st
  else if st.dollarTag ≠ [] then
    if ch = '$' ∧ srcPeek (st.dollarTag.length - 1) rest = st.dollarTag.tail then
      .emit (st.dollarTag.length - 1) (ch :: st.dollarTag.tail) { st with dollarTag := [] }
    else .emit 0 [ch] st
  else if st.inSingle = false ∧ st.inDouble = false ∧ ch = '-' ∧
      (srcPeek 2 rest = ['-', ' '] ∨ srcPeek 2 rest = ['-', '-']) then
    .emit 1 (ch :: srcPeek 1 rest) { st with inLineComment := true }
  else if st.inSingle = false ∧ st.inDouble = false ∧ ch = '/' ∧ srcPeek 1 rest = ['*'] then
    .emit 1 (ch :: srcPeek 1 rest) { st with inBlockComment := true }
  else if st.inSingle = false ∧ st.inDouble = false ∧ ch = '$' then
    match dollarTagScan ['$'] (srcPeek 64 rest) with
    | some tag => .emit (tag.length - 1) (ch :: srcPeek (tag.length - 1) rest) { st with dollarTag := tag }
    | none => stepTail ch st
  else stepTail ch st

/-- The scanning loop over a fallible source: a read error at the top of the
loop (src/main.go lines 283-286) breaks out exactly like end of input, after
which the final flush of lines 392-394 runs. -/
def goOpt : Nat → List (Option Char) → SplitState → List Char → List (List Char) → List (List Char)
  | _, [], _, buf, acc => flushInto buf acc
  | _, none :: _, _, buf, acc => flushInto buf acc
  | 0, some _ :: _, _, buf, acc => flushInto buf acc
  | n + 1, some ch :: rest, st, buf, acc =>
    match stepOpt ch rest st with
    | .emit k app st' => goOpt n (rest.drop k) st' (buf ++ app) acc
    | .cut st' => goOpt n rest st' [] (flushInto buf acc)

/-- `splitSQLStatements` run against a fallible character source. -/
def splitSQLStatementsSrc (src : List (Option Char)) : List (List Char) :=
  goOpt src.length src initState [] []

theorem srcPeek_fault (junk : List (Option Char)) :
    ∀ (pre : List Char) (k : Nat), srcPeek k (pre.map some ++ none :: junk) = pre.take k := by
  intro pre
  induction pre with
  | nil => intro k; cases k <;> rfl
  | cons c cs ih =>
    intro k
    cases k with
    | zero => rfl
    | succ k' => simp [srcPeek, ih k']

/-- Up to the first read error the fallible loop body decides exactly as the
plain one. -/
theorem stepOpt_fault (ch : Char) (pre : List Char) (junk : List (Option Char))
    (st : SplitState) : stepOpt ch (pre.map some ++ none :: junk) st = step ch pre st := by
  unfold stepOpt step
  simp only [srcPeek_fault junk pre]

theorem dollarTagScan_length : ∀ (l acc tag : List Char), dollarTagScan acc l = some tag →
    tag.length ≤ acc.length + l.length := by
  intro l
  induction l with
  | nil => intro acc tag h; exact absurd h (by simp [dollarTagScan])
  | cons r rs ih =>
    intro acc tag h
    unfold dollarTagScan at h
    split_ifs at h with h1 h2
    · cases h
      simp only [List.length_append, List.length_cons, List.length_nil]
      omega
    · have hih := ih (acc ++ [r]) tag h
      simp only [List.length_append, List.length_cons, List.length_nil] at hih ⊢
      omega

/-- Every `emit` outcome consumes no more than the remaining input: the
peeked window it matched is fully present. -/
theorem step_emit_k_le (ch : Char) (pre : List Char) (st : SplitState) (k : Nat)
    (app : List Char) (st' : SplitState) (h : step ch pre st = .emit k app st') :
    k ≤ pre.length := by
  unfold step stepTail at h
  repeat' split at h
  all_goals try simp_all
  all_goals obtain ⟨rfl, -, -⟩ := h
  all_goals try (exact Nat.zero_le _)
  · rename_i hc
    have hl := congrArg List.length hc.2
    simp only [List.length_take, List.length_cons, List.length_nil] at hl
    omega
  · rename_i hc
    have hl := congrArg List.length hc.2
    simp only [List.length_take, List.length_tail] at hl
    omega
  · rename_i hc
    rcases hc.2.2.2 with h2 | h2 <;>
      (have hl := congrArg List.length h2
       simp only [List.length_take, List.length_cons, List.length_nil] at hl
       omega)
  · rename_i hc
    have hl := congrArg List.length hc.2.2.2
    simp only [List.length_take, List.length_cons, List.length_nil] at hl
    omega
  · rename_i heq
    have hl := dollarTagScan_length _ _ _ heq
    simp only [List.length_take, List.length_cons, List.length_nil] at hl
    omega

/-- The fuel parameter is irrelevant as long as it covers the input length:
the loop it drives is the same loop. -/
theorem go_fuel : ∀ (n₁ n₂ : Nat) (inp : List Char) (st : SplitState) (buf : List Char)
    (acc : List (List Char)), inp.length ≤ n₁ → inp.length ≤ n₂ →
    go n₁ inp st buf acc = go n₂ inp st buf acc := by
  intro n₁
  induction n₁ with
  | zero =>
    intro n₂ inp st buf acc h1 _
    obtain rfl : inp = [] := List.length_eq_zero.mp (Nat.le_zero.mp h1)
    cases n₂ <;> rfl
  | succ m ih =>
    intro n₂ inp st buf acc h1 h2
    cases inp with
    | nil => cases n₂ <;> rfl
    | cons ch rest =>
      match n₂ with
      | 0 => exact absurd h2 (by simp)
      | m₂ + 1 =>
        simp only [go]
        have hr1 : rest.length ≤ m := by simp only [List.length_cons] at h1; omega
        have hr2 : rest.length ≤ m₂ := by simp only [List.length_cons] at h2; omega
        cases hstep : step ch rest st with
        | emit k app st' =>
          have hd1 : (rest.drop k).length ≤ m :=
            le_trans (by simp only [List.length_drop]; omega) hr1
          have hd2 : (rest.drop k).length ≤ m₂ :=
            le_trans (by simp only [List.length_drop]; omega) hr2
          exact ih m₂ (rest.drop k) st' (buf ++ app) acc hd1 hd2
        | cut st' =>
          exact ih m₂ rest st' [] (flushInto buf acc) hr1 hr2

/-- Scanning a faulting source is scanning the prefix read before the fault:
the loop treats the read error exactly like end of input. -/
theorem goOpt_fault (junk : List (Option Char)) : ∀ (n : Nat) (pre : List Char)
    (st : SplitState) (buf : List Char) (acc : List (List Char)),
    goOpt n (pre.map some ++ none :: junk) st buf acc = go n pre st buf acc := by
  intro n
  induction n with
  | zero => intro pre st buf acc; cases pre <;> rfl
  | succ m ih =>
    intro pre st buf acc
    cases pre with
    | nil => rfl
    | cons ch pre' =>
      show goOpt (m + 1) (some ch :: (pre'.map some ++ none :: junk)) st buf acc = _
      simp only [go, goOpt, stepOpt_fault]
      cases hstep : step ch pre' st with
      | emit k app st' =>
        have hk : k ≤ pre'.length := step_emit_k_le ch pre' st k app st' hstep
        have hdrop : (pre'.map some ++ none :: junk).drop k =
            (pre'.drop k).map some ++ none :: junk := by
          rw [List.drop_append_of_le_length (by simpa using hk)]
          simp
        change goOpt m ((pre'.map some ++ none :: junk).drop k) st' (buf ++ app) acc =
          go m (pre'.drop k) st' (buf ++ app) acc
        rw [hdrop]
        exact ih (pre'.drop k) st' (buf ++ app) acc
      | cut st' => exact ih pre' st' [] (flushInto buf acc)

/-- C8 counterexample: a read fault does not abort the split with an
identifiable error.  A source that faults after `select 1` returns the very
same plain statement list as a fault-free source holding only `select 1`
(the characters after the fault are lost silently), and a source that faults
immediately returns the empty list, indistinguishable from an empty script.
The splitter's return type carries no error at all. -/
theorem read_fault_conflated_cex :
    splitSQLStatementsSrc ("select 1".data.map some ++ none :: "; drop t".data.map some) =
        ["select 1".data] ∧
      splitSQLStatementsSrc ("select 1".data.map some) = ["select 1".data] ∧
      splitSQLStatementsSrc [none] = ([] : List (List Char)) ∧
      splitSQLStatements ([] : List Char) = ([] : List (List Char)) := by
  decide

/-- C8 amended: the Go splitter returns only a statement list (no error
value); a read fault from the character source is treated exactly like end
of input — the loop breaks, the buffer is flushed, and the statements of the
prefix read before the fault are returned silently.  The second half of the
claim stands: any text yields a statement sequence without error. -/
theorem read_fault_truncates (pre : List Char) (junk : List (Option Char)) :
    splitSQLStatementsSrc (pre.map some ++ none :: junk) = splitSQLStatements pre ∧
      ∀ (n : Nat) (st : SplitState) (buf : List Char) (acc : List (List Char)),
        goOpt n (pre.map some ++ none :: junk) st buf acc = go n pre st buf acc := by
  constructor
  · unfold splitSQLStatementsSrc splitSQLStatements
    rw [goOpt_fault]
    exact go_fuel _ _ pre initState [] [] (by simp) le_rfl
  · intro n st buf acc
    exact goOpt_fault junk n pre st buf acc

/-- The reachable-state invariant of the scanner: an active dollar tag always
ends in `$` (it was produced by the tag-detection loop) and fits the 64
character lookahead window. -/
def SplitState.good (st : SplitState) : Prop :=
  st.dollarTag = [] ∨ st.dollarTag.getLast? = some '$'

theorem normal_iff_initState (st : SplitState) : st.normal ↔ st = initState := by
  obtain ⟨s, d, lc, bc, tag⟩ := st
  simp [SplitState.normal, initState]

theorem initState_good : initState.good := Or.inl rfl

theorem getLast?_cons_of_ne_nil (a : Char) (p : List Char) (h : p ≠ []) :
    (a :: p).getLast? = p.getLast? := by
  cases p with
  | nil => exact absurd rfl h
  | cons b q => simp [List.getLast?]

/-- What a successful run of the tag-detection loop looks like: the tag is
the accumulator followed by a non-empty scanned prefix of the window that
ends in `$`. -/
theorem dollarTagScan_decomp : ∀ (l acc tag : List Char), dollarTagScan acc l = some tag →
    ∃ p, p ≠ [] ∧ tag = acc ++ p ∧ l.take p.length = p ∧ p.getLast? = some '$' ∧
      p.length ≤ l.length := by
  intro l
  induction l with
  | nil => intro acc tag h; exact absurd h (by simp [dollarTagScan])
  | cons r rs ih =>
    intro acc tag h
    simp only [dollarTagScan] at h
    split_ifs at h with h1 h2
    · subst h1
      injection h with h'
      refine ⟨['$'], by simp, h'.symm, by simp, by simp, by simp⟩
    · obtain ⟨p, hne, htag, htake, hlast, hlen⟩ := ih (acc ++ [r]) tag h
      refine ⟨r :: p, by simp, by simp [htag], ?_, ?_, by simp; omega⟩
      · simp only [List.length_cons, List.take_succ_cons, htake]
      · rw [getLast?_cons_of_ne_nil r p hne]
        exact hlast

/-- Tag detection is decided by the scanned prefix alone: whatever follows
that prefix in the window is irrelevant. -/
theorem dollarTagScan_extend : ∀ (p x y acc : List Char),
    dollarTagScan acc (p ++ x) = some (acc ++ p) →
    dollarTagScan acc (p ++ y) = some (acc ++ p) := by
  intro p
  induction p with
  | nil =>
    intro x y acc h
    obtain ⟨q, hq, habs, _, _, _⟩ := dollarTagScan_decomp _ _ _ h
    have hlen := congrArg List.length habs
    simp only [List.append_nil, List.length_append] at hlen
    exact absurd (List.length_eq_zero.mp (by omega)) hq
  | cons r rs ih =>
    intro x y acc h
    simp only [List.cons_append] at h ⊢
    simp only [dollarTagScan] at h ⊢
    split_ifs at h ⊢ with h1 h2
    · injection h with h'
      have hlen := congrArg List.length h'
      simp only [List.length_append, List.length_cons, List.length_nil] at hlen
      have hrs : rs = [] := List.length_eq_zero.mp (by omega)
      subst hrs
      rfl
    · have h'' : dollarTagScan (acc ++ [r]) (rs ++ x) = some ((acc ++ [r]) ++ rs) := by
        rw [h]
        simp
      have hih := ih x y (acc ++ [r]) h''
      rw [hih]
      simp

/-- Failed tag detection stays failed when the window is truncated. -/
theorem dollarTagScan_none_prefix : ∀ (u x acc : List Char),
    dollarTagScan acc (u ++ x) = none → dollarTagScan acc u = none := by
  intro u
  induction u with
  | nil => intro x acc _; rfl
  | cons r rs ih =>
    intro x acc h
    simp only [List.cons_append] at h
    simp only [dollarTagScan] at h ⊢
    split_ifs at h ⊢ with h1 h2
    · rfl
    · exact ih x (acc ++ [r]) h

/-- A cut-free scan: starting in state `st` the loop body consumes exactly
`w` in whole per-iteration chunks (each chunk is the current character plus
the lookahead characters the iteration consumed, the lookahead evaluated
inside `w ++ ctx`), never reaching a statement boundary, and ends in state
`stE`. -/
inductive Scan : SplitState → List Char → List Char → SplitState → Prop where
  | nil (st : SplitState) (ctx : List Char) : Scan st [] ctx st
  | chunk (st st₁ stE : SplitState) (ch : Char) (w₁ w₂ ctx : List Char) :
      step ch (w₁ ++ w₂ ++ ctx) st = .emit w₁.length (ch :: w₁) st₁ →
      Scan st₁ w₂ ctx stE →
      Scan st (ch :: (w₁ ++ w₂)) ctx stE

/-- A statement boundary can only fire from the Normal state. -/
theorem step_cut_normal (ch : Char) (rest : List Char) (st st' : SplitState)
    (h : step ch rest st = .cut st') : st.normal := by
  obtain ⟨rfl, -⟩ := step_cut_semicolon _ _ _ _ h
  by_contra hn
  have hs := step_semicolon rest st
  rw [if_neg hn] at hs
  rw [h] at hs
  exact absurd hs (by simp)

/-- One loop iteration preserves the reachable-state invariant. -/
theorem step_emit_good (ch : Char) (rest : List Char) (st : SplitState) (k : Nat)
    (app : List Char) (st' : SplitState) (hg : st.good)
    (h : step ch rest st = .emit k app st') : st'.good := by
  unfold step stepTail at h
  repeat' split at h
  all_goals try simp_all [SplitState.good, toggleQuotes]
  all_goals obtain ⟨-, -, rfl⟩ := h
  all_goals try (exact hg)
  all_goals try (left; rfl)
  all_goals try (left; split_ifs <;> simp_all)
  rename_i heq
  obtain ⟨p, hne, htag, -, hlast, -⟩ := dollarTagScan_decomp _ _ _ heq
  right
  simp only [htag, List.singleton_append]
  rw [getLast?_cons_of_ne_nil _ _ hne]
  exact hlast

/-- Every run of the loop decomposes at its first statement boundary: either
the whole input is scanned cut-free and flushed at end of input, or a
cut-free scan reaches a boundary semicolon, the buffer is flushed, and the
scanner restarts from the initial state on the remainder. -/
theorem go_run_cases : ∀ (n : Nat) (inp : List Char) (st : SplitState) (buf : List Char)
    (acc : List (List Char)), inp.length ≤ n →
    (∃ stE, Scan st inp [] stE ∧ go n inp st buf acc = flushInto (buf ++ inp) acc) ∨
    (∃ w rest stE, inp = w ++ ';' :: rest ∧ Scan st w (';' :: rest) stE ∧ stE = initState ∧
      go n inp st buf acc = go rest.length rest initState [] (flushInto (buf ++ w) acc)) := by
  intro n
  induction n with
  | zero =>
    intro inp st buf acc hn
    obtain rfl : inp = [] := List.length_eq_zero.mp (Nat.le_zero.mp hn)
    exact Or.inl ⟨st, Scan.nil st [], by simp [go]⟩
  | succ m ih =>
    intro inp st buf acc hn
    cases inp with
    | nil => exact Or.inl ⟨st, Scan.nil st [], by simp [go]⟩
    | cons ch restI =>
      have hrl : restI.length ≤ m := by simpa using hn
      cases hstep : step ch restI st with
      | cut st' =>
        obtain ⟨hch, hst'⟩ := step_cut_semicolon _ _ _ _ hstep
        subst hch
        have hnorm := step_cut_normal _ _ _ _ hstep
        have hinit : st = initState := (normal_iff_initState st).mp hnorm
        subst hinit
        subst hst'
        right
        refine ⟨[], restI, initState, by simp, Scan.nil _ _, rfl, ?_⟩
        simp only [go, hstep]
        rw [go_fuel m restI.length restI initState [] _ hrl le_rfl]
        simp
      | emit k app st' =>
        have happ := step_emit_app _ _ _ _ _ _ hstep
        have hkle := step_emit_k_le _ _ _ _ _ _ hstep
        have hlen : (restI.take k).length = k := by
          simp only [List.length_take]
          omega
        have hdl : (restI.drop k).length ≤ m :=
          le_trans (by simp only [List.length_drop]; omega) hrl
        rcases ih (restI.drop k) st' (buf ++ app) acc hdl with
          ⟨stE, hscan, heq⟩ | ⟨w, rest, stE, hw, hscan, hstE, heq⟩
        · left
          refine ⟨stE, ?_, ?_⟩
          · have : restI = restI.take k ++ restI.drop k := (List.take_append_drop k restI).symm
            rw [show ch :: restI = ch :: (restI.take k ++ restI.drop k) by rw [← this]]
            apply Scan.chunk st st' stE ch (restI.take k) (restI.drop k) []
            · rw [List.append_nil, List.take_append_drop, hlen, ← happ]
              exact hstep
            · exact hscan
          · simp only [go, hstep]
            rw [heq]
            have : buf ++ app ++ restI.drop k = buf ++ ch :: restI := by
              rw [happ]
              simp [List.append_assoc]
            rw [this]
        · right
          refine ⟨ch :: (restI.take k ++ w), rest, stE, ?_, ?_, hstE, ?_⟩
          · show ch :: restI = (ch :: (restI.take k ++ w)) ++ ';' :: rest
            conv_lhs => rw [← List.take_append_drop k restI, hw]
            simp
          · apply Scan.chunk st st' stE ch (restI.take k) w (';' :: rest)
            · have h2 : restI.take k ++ w ++ ';' :: rest = restI := by
                rw [List.append_assoc, ← hw]
                exact List.take_append_drop k restI
              rw [h2, hlen, ← happ]
              exact hstep
            · exact hscan
          · simp only [go, hstep]
            rw [heq]
            have : buf ++ app ++ w = buf ++ ch :: (restI.take k ++ w) := by
              rw [happ]
              simp [List.append_assoc]
            rw [this]

/-- The loop body's decisions depend on the input beyond the chunk it
consumes in exactly one place: with nothing left after the chunk, `--`
followed (beyond the scanned text) by a space or dash still opens a line
comment.  Every other chunk is re-produced verbatim when the continuation is
removed; in the one divergent case the standalone scanner instead treats the
final two dashes as plain characters. -/
theorem step_ctx (ch : Char) (w₁ w₂ tc : List Char) (st st₁ : SplitState)
    (h : step ch (w₁ ++ (w₂ ++ tc)) st = .emit w₁.length (ch :: w₁) st₁) :
    step ch (w₁ ++ w₂) st = .emit w₁.length (ch :: w₁) st₁ ∨
    (ch = '-' ∧ w₁ = ['-'] ∧ w₂ = [] ∧ st = initState ∧
      st₁ = { initState with inLineComment := true } ∧
      step ch (w₁ ++ w₂) st = .emit 0 [ch] st) := by
  have hW : ∀ j : Nat, j ≤ (w₁ ++ w₂).length →
      (w₁ ++ (w₂ ++ tc)).take j = (w₁ ++ w₂).take j := by
    intro j hj
    rw [← List.append_assoc, List.take_append_of_le_length hj]
  by_cases hlc : st.inLineComment = true
  · left
    simp only [step, if_pos hlc] at h ⊢
    exact h
  by_cases hbc : st.inBlockComment = true
  · simp only [step, if_neg hlc, if_pos hbc] at h ⊢
    left
    by_cases hcond : ch = '*' ∧ (w₁ ++ (w₂ ++ tc)).take 1 = ['/']
    · rw [if_pos hcond] at h
      have hap := (StepRes.emit.inj h).2.1
      have hw₁ : w₁ = ['/'] := by
        have h2 := hap.symm
        rw [List.cons.injEq] at h2
        exact h2.2
      have hcond₂ : ch = '*' ∧ (w₁ ++ w₂).take 1 = ['/'] := by
        refine ⟨hcond.1, ?_⟩
        subst hw₁
        rfl
      rw [if_pos hcond₂]
      exact h
    · rw [if_neg hcond] at h
      have hcond₂ : ¬(ch = '*' ∧ (w₁ ++ w₂).take 1 = ['/']) := by
        rintro ⟨rfl, htk⟩
        refine hcond ⟨rfl, ?_⟩
        have hlen : 1 ≤ (w₁ ++ w₂ : List Char).length := by
          by_contra hl
          have h0 : (w₁ ++ w₂ : List Char).length = 0 := by omega
          rw [List.take_of_length_le (by omega)] at htk
          have := congrArg List.length htk
          simp only [List.length_cons, List.length_nil] at this
          omega
        rw [hW 1 hlen]
        exact htk
      rw [if_neg hcond₂]
      exact h
  by_cases htag : st.dollarTag ≠ []
  · simp only [step, if_neg hlc, if_neg hbc, if_pos htag] at h ⊢
    left
    by_cases hcond : ch = '$' ∧
        (w₁ ++ (w₂ ++ tc)).take (st.dollarTag.length - 1) = st.dollarTag.tail
    · rw [if_pos hcond] at h
      have hap := (StepRes.emit.inj h).2.1
      have hw₁ : w₁ = st.dollarTag.tail := by
        have h2 := hap
        rw [List.cons.injEq] at h2
        exact h2.2.symm
      have hcond₂ : ch = '$' ∧ (w₁ ++ w₂).take (st.dollarTag.length - 1) = st.dollarTag.tail := by
        refine ⟨hcond.1, ?_⟩
        rw [hw₁]
        have hlt : st.dollarTag.tail.length = st.dollarTag.length - 1 := List.length_tail _
        rw [← hlt, List.take_left]
      rw [if_pos hcond₂]
      exact h
    · rw [if_neg hcond] at h
      have hcond₂ : ¬(ch = '$' ∧ (w₁ ++ w₂).take (st.dollarTag.length - 1) = st.dollarTag.tail) := by
        rintro ⟨rfl, htk⟩
        refine hcond ⟨rfl, ?_⟩
        have hlen : st.dollarTag.length - 1 ≤ (w₁ ++ w₂ : List Char).length := by
          have := congrArg List.length htk
          simp only [List.length_take, List.length_tail] at this
          omega
        rw [hW _ hlen]
        exact htk
      rw [if_neg hcond₂]
      exact h
  by_cases hline : st.inSingle = false ∧ st.inDouble = false ∧ ch = '-' ∧
      ((w₁ ++ (w₂ ++ tc)).take 2 = ['-', ' '] ∨ (w₁ ++ (w₂ ++ tc)).take 2 = ['-', '-'])
  · simp only [step, if_neg hlc, if_neg hbc, if_neg htag, if_pos hline] at h
    have hap := (StepRes.emit.inj h).2.1
    have hst := (StepRes.emit.inj h).2.2
    have hw₁ : (w₁ ++ (w₂ ++ tc)).take 1 = w₁ := by
      rw [List.cons.injEq] at hap
      exact hap.2
    have h1 : (w₁ ++ (w₂ ++ tc)).take 1 = ['-'] := by
      have hmin : (w₁ ++ (w₂ ++ tc)).take 1 = ((w₁ ++ (w₂ ++ tc)).take 2).take 1 := by
        rw [List.take_take]
        norm_num
      rcases hline.2.2.2 with h2 | h2 <;> rw [hmin, h2] <;> rfl
    have hw₁d : w₁ = ['-'] := by rw [← hw₁, h1]
    subst hw₁d
    cases w₂ with
    | nil =>
      right
      have h5 : st.inSingle = false := hline.1
      have h6 : st.inDouble = false := hline.2.1
      have h7 : st.inLineComment = false := by simpa using hlc
      have h8 : st.inBlockComment = false := by simpa using hbc
      have h9 : st.dollarTag = [] := by simpa using htag
      have hinit : st = initState := by
        obtain ⟨s, d, l, b, t⟩ := st
        simp_all [initState]
      subst hinit
      refine ⟨hline.2.2.1, rfl, rfl, rfl, ?_, ?_⟩
      · rw [← hst]
      · rw [hline.2.2.1]
        decide
    | cons d w₂' =>
      left
      have hlen2 : (2 : Nat) ≤ ((['-'] : List Char) ++ d :: w₂').length := by
        simp
      have hcond₂ : st.inSingle = false ∧ st.inDouble = false ∧ ch = '-' ∧
          (((['-'] : List Char) ++ d :: w₂').take 2 = ['-', ' '] ∨
            ((['-'] : List Char) ++ d :: w₂').take 2 = ['-', '-']) := by
        refine ⟨hline.1, hline.2.1, hline.2.2.1, ?_⟩
        rcases hline.2.2.2 with h2 | h2
        · left
          rw [← hW 2 hlen2]
          exact h2
        · right
          rw [← hW 2 hlen2]
          exact h2
      simp only [step, if_neg hlc, if_neg hbc, if_neg htag, if_pos hcond₂]
      exact h
  by_cases hblock : st.inSingle = false ∧ st.inDouble = false ∧ ch = '/' ∧
      (w₁ ++ (w₂ ++ tc)).take 1 = ['*']
  · simp only [step, if_neg hlc, if_neg hbc, if_neg htag, if_neg hline, if_pos hblock] at h
    left
    have hap := (StepRes.emit.inj h).2.1
    have hw₁ : (w₁ ++ (w₂ ++ tc)).take 1 = w₁ := by
      rw [List.cons.injEq] at hap
      exact hap.2
    have hw₁d : w₁ = ['*'] := by rw [← hw₁, hblock.2.2.2]
    subst hw₁d
    have hline₂ : ¬(st.inSingle = false ∧ st.inDouble = false ∧ ch = '-' ∧
        (((['*'] : List Char) ++ w₂).take 2 = ['-', ' '] ∨
          ((['*'] : List Char) ++ w₂).take 2 = ['-', '-'])) := by
      rintro ⟨-, -, hc, -⟩
      rw [hblock.2.2.1] at hc
      exact absurd hc (by decide)
    have hcond₂ : st.inSingle = false ∧ st.inDouble = false ∧ ch = '/' ∧
        ((['*'] : List Char) ++ w₂).take 1 = ['*'] := ⟨hblock.1, hblock.2.1, hblock.2.2.1, rfl⟩
    simp only [step, if_neg hlc, if_neg hbc, if_neg htag, if_neg hline₂, if_pos hcond₂]
    exact h
  by_cases hdollar : st.inSingle = false ∧ st.inDouble = false ∧ ch = '$'
  · simp only [step, if_neg hlc, if_neg hbc, if_neg htag, if_neg hline, if_neg hblock,
      if_pos hdollar] at h
    left
    have hline₂ : ¬(st.inSingle = false ∧ st.inDouble = false ∧ ch = '-' ∧
        ((w₁ ++ w₂).take 2 = ['-', ' '] ∨ (w₁ ++ w₂).take 2 = ['-', '-'])) := by
      rintro ⟨-, -, hc, -⟩
      rw [hdollar.2.2] at hc
      exact absurd hc (by decide)
    have hblock₂ : ¬(st.inSingle = false ∧ st.inDouble = false ∧ ch = '/' ∧
        (w₁ ++ w₂).take 1 = ['*']) := by
      rintro ⟨-, -, hc, -⟩
      rw [hdollar.2.2] at hc
      exact absurd hc (by decide)
    simp only [step, if_neg hlc, if_neg hbc, if_neg htag, if_neg hline₂, if_neg hblock₂,
      if_pos hdollar]
    cases hscan : dollarTagScan ['$'] ((w₁ ++ (w₂ ++ tc)).take 64) with
    | some tag =>
      simp only [hscan] at h
      have hap := (StepRes.emit.inj h).2.1
      have hw₁t : (w₁ ++ (w₂ ++ tc)).take (tag.length - 1) = w₁ := by
        rw [List.cons.injEq] at hap
        exact hap.2
      obtain ⟨p, hne, htagp, htake64, hlast, hplen⟩ := dollarTagScan_decomp _ _ _ hscan
      have hp64 : p.length ≤ 64 := by
        refine le_trans hplen ?_
        simp [List.length_take]
      have hlenp : tag.length - 1 = p.length := by
        rw [htagp]
        simp
      have htakep : (w₁ ++ (w₂ ++ tc)).take p.length = p := by
        rw [List.take_take] at htake64
        rwa [Nat.min_eq_left hp64] at htake64
      have hw₁p : w₁ = p := by rw [← hw₁t, hlenp, htakep]
      subst hw₁p
      have hwin₁ : (w₁ ++ (w₂ ++ tc)).take 64 = w₁ ++ (w₂ ++ tc).take (64 - w₁.length) := by
        rw [List.take_append_eq_append_take, List.take_of_length_le hp64]
      have hwin₂ : (w₁ ++ w₂).take 64 = w₁ ++ w₂.take (64 - w₁.length) := by
        rw [List.take_append_eq_append_take, List.take_of_length_le hp64]
      have hscan₂ : dollarTagScan ['$'] ((w₁ ++ w₂).take 64) = some tag := by
        rw [hwin₂, htagp]
        apply dollarTagScan_extend w₁ ((w₂ ++ tc).take (64 - w₁.length)) _ ['$']
        rw [← hwin₁, ← htagp]
        exact hscan
      simp only [hscan₂]
      have htk₂ : (w₁ ++ w₂).take (tag.length - 1) = w₁ := by
        rw [hlenp, List.take_left]
      rw [htk₂]
      rw [hw₁t] at h
      exact h
    | none =>
      simp only [hscan] at h
      have hw₁nil : w₁ = [] := by
        unfold stepTail at h
        split at h
        · exact absurd h (by simp)
        · have hk := (StepRes.emit.inj h).1
          exact (List.length_eq_zero.mp hk.symm)
      subst hw₁nil
      have hwin : (([] : List Char) ++ (w₂ ++ tc)).take 64 =
          w₂.take 64 ++ tc.take (64 - w₂.length) := by
        simp [List.take_append_eq_append_take]
      rw [hwin] at hscan
      have hscan₂ : dollarTagScan ['$'] ((([] : List Char) ++ w₂).take 64) = none := by
        simpa using dollarTagScan_none_prefix _ _ _ hscan
      simp only [hscan₂]
      exact h
  · simp only [step, if_neg hlc, if_neg hbc, if_neg htag, if_neg hline, if_neg hblock,
      if_neg hdollar] at h
    left
    have hw₁nil : w₁ = [] := by
      unfold stepTail at h
      split at h
      · exact absurd h (by simp)
      · have hk := (StepRes.emit.inj h).1
        exact (List.length_eq_zero.mp hk.symm)
    subst hw₁nil
    have hline₂ : ¬(st.inSingle = false ∧ st.inDouble = false ∧ ch = '-' ∧
        ((([] : List Char) ++ w₂).take 2 = ['-', ' '] ∨
          (([] : List Char) ++ w₂).take 2 = ['-', '-'])) := by
      rintro ⟨a, b, c, d⟩
      refine hline ⟨a, b, c, ?_⟩
      have hlen2 : (2 : Nat) ≤ (([] : List Char) ++ w₂).length := by
        rcases d with d | d <;>
          (have hld := congrArg List.length d
           simp only [List.length_take, List.length_cons, List.length_nil] at hld
           omega)
      rw [hW 2 hlen2]
      exact d
    have hblock₂ : ¬(st.inSingle = false ∧ st.inDouble = false ∧ ch = '/' ∧
        (([] : List Char) ++ w₂).take 1 = ['*']) := by
      rintro ⟨a, b, c, d⟩
      refine hblock ⟨a, b, c, ?_⟩
      have hlen1 : (1 : Nat) ≤ (([] : List Char) ++ w₂).length := by
        have := congrArg List.length d
        simp only [List.length_take, List.length_cons, List.length_nil] at this
        omega
      rw [hW 1 hlen1]
      exact d
    simp only [step, if_neg hlc, if_neg hbc, if_neg htag, if_neg hline₂, if_neg hblock₂,
      if_neg hdollar]
    exact h

/-- From the initial state a whitespace character is always consumed alone
and leaves the state untouched, whatever the remaining input. -/
theorem step_ws (c : Char) (rest : List Char) (h : goIsSpace c = true) :
    step c rest initState = .emit 0 [c] initState := by
  simp only [goIsSpace, Bool.or_eq_true, decide_eq_true_eq] at h
  rcases h with ((((rfl | rfl) | rfl) | rfl) | rfl) | rfl <;>
    simp [step, stepTail, toggleQuotes, initState]

/-- A cut-free scan from an invariant-respecting state flushes as a single
raw statement: running the loop on exactly the scanned text, with enough
fuel, appends it whole to the buffer and performs the final flush.  This is
the heart of idempotence; the scan's chunks were produced with the
continuation `tc` still present, and `step_ctx` transfers each of them to
the standalone run. -/
theorem scan_go_flush : ∀ (st₀ : SplitState) (s tc : List Char) (stE : SplitState),
    Scan st₀ s tc stE → st₀.good →
    ∀ (n : Nat) (buf : List Char) (acc : List (List Char)), s.length ≤ n →
      go n s st₀ buf acc = flushInto (buf ++ s) acc := by
  intro st₀ s tc stE hscan
  induction hscan with
  | nil st ctx =>
    intro _ n buf acc _
    cases n <;> simp [go]
  | chunk st st₁ stE ch w₁ w₂ ctx hstep hscan₂ ih =>
    intro hg n buf acc hn
    have hg₁ : st₁.good :=
      step_emit_good ch (w₁ ++ w₂ ++ ctx) st w₁.length (ch :: w₁) st₁ hg hstep
    cases n with
    | zero => simp at hn
    | succ m =>
      have hstep' : step ch (w₁ ++ (w₂ ++ ctx)) st = .emit w₁.length (ch :: w₁) st₁ := by
        rw [← List.append_assoc]
        exact hstep
      have hm : w₂.length ≤ m := by
        simp at hn
        omega
      rcases step_ctx ch w₁ w₂ ctx st st₁ hstep' with
        hagree | ⟨hch, hw₁, hw₂, hst0, hst₁, hdiv⟩
      · simp only [go, hagree, List.drop_left]
        rw [ih hg₁ m (buf ++ ch :: w₁) acc hm]
        congr 1
        simp
      · subst hch hw₁ hw₂ hst0
        obtain ⟨m', rfl⟩ : ∃ m', m = m' + 1 := ⟨m - 1, by simp at hn; omega⟩
        have e2 : step '-' ([] : List Char) initState = .emit 0 ['-'] initState := by decide
        rw [List.append_nil] at hdiv
        simp only [go, hdiv, e2, List.drop_zero, List.append_nil, List.append_eq,
          List.nil_append]
        congr 1
        simp

/-- A chunk that consumes lookahead ends in a non-whitespace character: the
multi-character chunks are the comment openers and closers and the dollar
tags, ending in a dash, slash, asterisk or dollar. -/
theorem step_emit_last (ch : Char) (rest : List Char) (st : SplitState) (k : Nat)
    (app : List Char) (st' : SplitState) (hg : st.good)
    (h : step ch rest st = .emit k app st') :
    k = 0 ∨ ∃ c, app.getLast? = some c ∧ goIsSpace c = false := by
  unfold step stepTail at h
  repeat' split at h
  all_goals try simp_all
  · obtain ⟨-, rfl, -⟩ := h
    exact Or.inr ⟨'/', by decide, by decide⟩
  · obtain ⟨-, rfl, -⟩ := h
    right
    refine ⟨'$', ?_, by decide⟩
    rcases hg with h0 | hlast
    · rw [h0]
      simp
    · cases htag2 : st.dollarTag with
      | nil => simp
      | cons a t =>
        cases t with
        | nil => simp
        | cons b u =>
          rw [htag2] at hlast
          rw [List.getLast?_cons_cons] at hlast
          simp only [List.tail_cons]
          rw [List.getLast?_cons_cons]
          exact hlast
  · rename_i hcond
    obtain ⟨-, rfl, -⟩ := h
    right
    refine ⟨'-', ?_, by decide⟩
    have h1 : rest.take 1 = ['-'] := by
      rcases hcond.2.2.2 with h2 | h2 <;>
        · have h3 : (rest.take 2).take 1 = rest.take 1 := by
            rw [List.take_take]
            norm_num
          rw [h2] at h3
          simpa using h3.symm
    rw [h1]
    simp
  · obtain ⟨-, rfl, -⟩ := h
    exact Or.inr ⟨'*', by decide, by decide⟩
  · rename_i tg a1 a2 a3 a4 heq
    obtain ⟨-, rfl, -⟩ := h
    obtain ⟨p, hne, htag, htake, hlast, hlen⟩ := dollarTagScan_decomp _ _ _ heq
    right
    refine ⟨'$', ?_, by decide⟩
    have h5 : tg.length - 1 = p.length := by
      rw [htag]
      simp
    have htake2 : rest.take (tg.length - 1) = p := by
      rw [h5]
      calc rest.take p.length = (rest.take 64).take p.length := by
            rw [List.take_take]
            congr 1
            have : (rest.take 64).length ≤ 64 := by
              simp [List.length_take]
            omega
        _ = p := htake
    rw [htake2]
    rw [getLast?_cons_of_ne_nil '$' p hne]
    exact hlast

theorem mem_of_getLast?_eq (l : List Char) (c : Char) (h : l.getLast? = some c) : c ∈ l := by
  induction l with
  | nil => simp at h
  | cons a t ih =>
    cases t with
    | nil => simp_all
    | cons b u =>
      rw [List.getLast?_cons_cons] at h
      exact List.mem_cons_of_mem a (ih h)

/-- Inversion of a non-empty cut-free scan: the first chunk covers the head
character and some prefix of the tail. -/
theorem scan_cons_inv (st₀ stE : SplitState) (c : Char) (l ctx : List Char)
    (h : Scan st₀ (c :: l) ctx stE) :
    ∃ w₁ w₂ st₁, l = w₁ ++ w₂ ∧
      step c (w₁ ++ w₂ ++ ctx) st₀ = .emit w₁.length (c :: w₁) st₁ ∧
      Scan st₁ w₂ ctx stE := by
  cases h with
  | chunk _ st₁ _ _ w₁ w₂ _ hstep hscan₂ => exact ⟨w₁, w₂, st₁, rfl, hstep, hscan₂⟩

/-- Leading whitespace is irrelevant to a cut-free scan from the initial
state: each whitespace character forms its own chunk and leaves the state
initial. -/
theorem peel_ws : ∀ (lead w ctx : List Char) (stE : SplitState),
    (∀ c ∈ lead, goIsSpace c = true) →
    Scan initState (lead ++ w) ctx stE → Scan initState w ctx stE := by
  intro lead
  induction lead with
  | nil =>
    intro w ctx stE _ h
    simpa using h
  | cons c lead' ih =>
    intro w ctx stE hws hscan
    have hc : goIsSpace c = true := hws c (by simp)
    rw [List.cons_append] at hscan
    obtain ⟨w₁, w₂, st₁, heq, hstep, hscan₂⟩ :=
      scan_cons_inv initState stE c (lead' ++ w) ctx hscan
    rw [step_ws c (w₁ ++ w₂ ++ ctx) hc] at hstep
    have hw₁ : w₁ = [] := List.length_eq_zero.mp ((StepRes.emit.inj hstep).1).symm
    have hst₁ : st₁ = initState := ((StepRes.emit.inj hstep).2.2).symm
    subst hw₁ hst₁
    rw [List.nil_append] at heq
    rw [← heq] at hscan₂
    exact ih w ctx stE (fun d hd => hws d (List.mem_cons_of_mem c hd)) hscan₂

/-- Trailing whitespace can be cut off a cut-free scan and moved into the
continuation: since every multi-character chunk ends in a non-whitespace
character, no chunk straddles the boundary between the trimmed text and the
trailing whitespace. -/
theorem scan_split (v : List Char) (hv : ∀ c ∈ v, goIsSpace c = true) :
    ∀ (N : Nat) (u : List Char), u.length ≤ N →
    ∀ (st : SplitState) (ctx : List Char) (stE : SplitState),
    Scan st (u ++ v) ctx stE → st.good →
    (∀ c, u.getLast? = some c → goIsSpace c = false) →
    ∃ stM, Scan st u (v ++ ctx) stM := by
  intro N
  induction N with
  | zero =>
    intro u hu st ctx stE hscan hg hlast
    obtain rfl : u = [] := List.length_eq_zero.mp (Nat.le_zero.mp hu)
    exact ⟨st, Scan.nil st (v ++ ctx)⟩
  | succ M ih =>
    intro u hu st ctx stE hscan hg hlast
    cases u with
    | nil => exact ⟨st, Scan.nil st (v ++ ctx)⟩
    | cons ch u' =>
      rw [List.cons_append] at hscan
      obtain ⟨w₁, w₂, st₁, heq, hstep, hscan₂⟩ := scan_cons_inv st stE ch (u' ++ v) ctx hscan
      have hg₁ : st₁.good :=
        step_emit_good ch (w₁ ++ w₂ ++ ctx) st w₁.length (ch :: w₁) st₁ hg hstep
      have hlen2 := congrArg List.length heq
      simp only [List.length_append] at hlen2
      have hkle : w₁.length ≤ u'.length := by
        by_contra hgt
        push_neg at hgt
        have htakew : (w₁ ++ w₂).take w₁.length = w₁ := List.take_left w₁ w₂
        rw [← heq, List.take_append_eq_append_take,
          List.take_of_length_le (le_of_lt hgt)] at htakew
        have hvtlen : (v.take (w₁.length - u'.length)).length = w₁.length - u'.length := by
          simp only [List.length_take]
          omega
        have hvtne : v.take (w₁.length - u'.length) ≠ [] := by
          intro hnil
          rw [hnil] at hvtlen
          simp at hvtlen
          omega
        rcases step_emit_last ch (w₁ ++ w₂ ++ ctx) st w₁.length (ch :: w₁) st₁ hg hstep with
          hk0 | ⟨c, hc, hcws⟩
        · omega
        · have hw₁ne : w₁ ≠ [] := by
            intro hnil
            rw [hnil] at hgt
            simp at hgt
          rw [getLast?_cons_of_ne_nil ch w₁ hw₁ne, ← htakew,
            List.getLast?_append_of_ne_nil u' hvtne] at hc
          have hcv : c ∈ v := List.take_subset _ v (mem_of_getLast?_eq _ _ hc)
          rw [hv c hcv] at hcws
          exact absurd hcws (by decide)
      have hw₁eq : w₁ = u'.take w₁.length := by
        have h3 := List.take_left w₁ w₂
        rw [← heq, List.take_append_of_le_length hkle] at h3
        exact h3.symm
      have hw₂eq : w₂ = u'.drop w₁.length ++ v := by
        have h4 := List.drop_left w₁ w₂
        rw [← heq, List.drop_append_of_le_length hkle] at h4
        exact h4.symm
      have hu'eq : u' = w₁ ++ u'.drop w₁.length := by
        conv_lhs => rw [← List.take_append_drop w₁.length u']
        rw [← hw₁eq]
      have hlen' : (u'.drop w₁.length).length ≤ M := by
        simp only [List.length_drop]
        have : u'.length + 1 ≤ M + 1 := by simpa using hu
        omega
      have hlast' : ∀ c, (u'.drop w₁.length).getLast? = some c → goIsSpace c = false := by
        intro c hc
        apply hlast c
        have hne : u'.drop w₁.length ≠ [] := by
          intro hnil
          rw [hnil] at hc
          simp at hc
        have hgl : (ch :: u').getLast? = (u'.drop w₁.length).getLast? := by
          conv_lhs => rw [hu'eq]
          show ((ch :: w₁) ++ u'.drop w₁.length).getLast? = _
          exact List.getLast?_append_of_ne_nil (ch :: w₁) hne
        rw [hgl]
        exact hc
      obtain ⟨stM, hscanM⟩ := ih (u'.drop w₁.length) hlen' st₁ ctx stE (hw₂eq ▸ hscan₂) hg₁ hlast'
      refine ⟨stM, ?_⟩
      rw [show (ch :: u') = ch :: (w₁ ++ u'.drop w₁.length) from by rw [← hu'eq]]
      apply Scan.chunk st st₁ stM ch w₁ (u'.drop w₁.length) (v ++ ctx)
      · have harg : w₁ ++ u'.drop w₁.length ++ (v ++ ctx) = w₁ ++ w₂ ++ ctx := by
          rw [hw₂eq]
          simp [List.append_assoc]
        rw [harg]
        exact hstep
      · exact hscanM

theorem head?_append_of_ne_nil (a b : List Char) (h : a ≠ []) : (a ++ b).head? = a.head? := by
  cases a with
  | nil => exact absurd rfl h
  | cons x t => rfl

theorem dropWhile_head_false (p : Char → Bool) (l : List Char) (c : Char)
    (h : (l.dropWhile p).head? = some c) : p c = false := by
  cases hd : l.dropWhile p with
  | nil =>
    rw [hd] at h
    simp at h
  | cons a t =>
    rw [hd] at h
    simp only [List.head?_cons, Option.some.injEq] at h
    subst h
    have := List.head?_dropWhile_not p l
    rw [hd] at this
    simpa using this

/-- `TrimSpace` splits the text into all-whitespace margins around a core
whose first and last characters are non-whitespace. -/
theorem trim_decomp (l : List Char) :
    ∃ lead tail, l = lead ++ (trim l ++ tail) ∧
      (∀ c ∈ lead, goIsSpace c = true) ∧ (∀ c ∈ tail, goIsSpace c = true) ∧
      (∀ c, (trim l).getLast? = some c → goIsSpace c = false) ∧
      (∀ c, (trim l).head? = some c → goIsSpace c = false) := by
  have hmid : l.dropWhile goIsSpace =
      trim l ++ ((l.dropWhile goIsSpace).reverse.takeWhile goIsSpace).reverse := by
    conv_lhs => rw [← List.reverse_reverse (l.dropWhile goIsSpace)]
    conv_lhs =>
      rw [show (l.dropWhile goIsSpace).reverse =
        (l.dropWhile goIsSpace).reverse.takeWhile goIsSpace ++
          (l.dropWhile goIsSpace).reverse.dropWhile goIsSpace from
        (List.takeWhile_append_dropWhile goIsSpace (l.dropWhile goIsSpace).reverse).symm]
    rw [List.reverse_append]
    rfl
  refine ⟨l.takeWhile goIsSpace,
    ((l.dropWhile goIsSpace).reverse.takeWhile goIsSpace).reverse, ?_, ?_, ?_, ?_, ?_⟩
  · conv_lhs =>
      rw [show l = l.takeWhile goIsSpace ++ l.dropWhile goIsSpace from
        (List.takeWhile_append_dropWhile goIsSpace l).symm]
    conv_lhs => rw [hmid]
  · exact fun c hc => List.mem_takeWhile_imp hc
  · intro c hc
    rw [List.mem_reverse] at hc
    exact List.mem_takeWhile_imp hc
  · intro c hc
    have h3 : ((l.dropWhile goIsSpace).reverse.dropWhile goIsSpace).head? = some c := by
      rw [← List.getLast?_reverse]
      exact hc
    exact dropWhile_head_false goIsSpace _ c h3
  · intro c hc
    have hne : trim l ≠ [] := by
      intro h0
      rw [h0] at hc
      simp at hc
    have h4 : (l.dropWhile goIsSpace).head? = some c := by
      rw [hmid, head?_append_of_ne_nil _ _ hne]
      exact hc
    exact dropWhile_head_false goIsSpace _ c h4

/-- Text with non-whitespace first and last characters is its own trim. -/
theorem trim_of_clean (l : List Char)
    (hh : ∀ c, l.head? = some c → goIsSpace c = false)
    (hl : ∀ c, l.getLast? = some c → goIsSpace c = false) : trim l = l := by
  unfold trim
  cases l with
  | nil => rfl
  | cons a t =>
    have ha : goIsSpace a = false := hh a rfl
    have hd : (a :: t).dropWhile goIsSpace = a :: t := by
      simp [List.dropWhile_cons, ha]
    rw [hd]
    have hrev : (a :: t).reverse.dropWhile goIsSpace = (a :: t).reverse := by
      cases hr : (a :: t).reverse with
      | nil => rfl
      | cons b u =>
        have hb : goIsSpace b = false := by
          apply hl
          rw [← List.head?_reverse, hr]
          rfl
        simp [List.dropWhile_cons, hb]
    rw [hrev, List.reverse_reverse]

theorem flushInto_acc (buf : List Char) (acc : List (List Char)) :
    flushInto buf acc = acc ++ flushInto buf [] := by
  unfold flushInto
  split <;> simp

/-- The output accumulator only ever grows by appending: a run with
accumulated statements equals those statements followed by the run with an
empty accumulator. -/
theorem go_acc : ∀ (n : Nat) (inp : List Char) (st : SplitState) (buf : List Char)
    (acc : List (List Char)), go n inp st buf acc = acc ++ go n inp st buf [] := by
  intro n
  induction n with
  | zero =>
    intro inp st buf acc
    cases inp <;> exact flushInto_acc buf acc
  | succ m ih =>
    intro inp st buf acc
    cases inp with
    | nil => exact flushInto_acc buf acc
    | cons ch rest =>
      cases hstep : step ch rest st with
      | emit k app st' =>
        simp only [go, hstep]
        exact ih (rest.drop k) st' (buf ++ app) acc
      | cut st' =>
        simp only [go, hstep]
        rw [ih rest st' [] (flushInto buf acc), ih rest st' [] (flushInto buf []),
          flushInto_acc]
        simp [List.append_assoc]

/-- The trimmed text of any cut-free scanned stretch re-splits to itself:
peel its whitespace margins off the scan, then replay the core standalone. -/
theorem resplit_raw (w ctx : List Char) (stE : SplitState)
    (hscan : Scan initState w ctx stE) (hne : trim w ≠ []) :
    splitSQLStatements (trim w) = [trim w] := by
  obtain ⟨lead, tail, hdecomp, hleadws, htailws, hlastn, hheadn⟩ := trim_decomp w
  have hscan1 : Scan initState (trim w ++ tail) ctx stE := by
    apply peel_ws lead (trim w ++ tail) ctx stE hleadws
    rw [← hdecomp]
    exact hscan
  obtain ⟨stM, hscan2⟩ := scan_split tail htailws (trim w).length (trim w) le_rfl
    initState ctx stE hscan1 initState_good hlastn
  have hgo := scan_go_flush initState (trim w) (tail ++ ctx) stM hscan2 initState_good
    (trim w).length [] [] le_rfl
  unfold splitSQLStatements
  rw [hgo, List.nil_append]
  unfold flushInto
  rw [trim_of_clean (trim w) hheadn hlastn, if_neg hne]
  rfl

theorem c4_aux : ∀ (N : Nat) (input : List Char), input.length ≤ N →
    ∀ s ∈ splitSQLStatements input, splitSQLStatements s = [s] := by
  intro N
  induction N with
  | zero =>
    intro input hlen s hs
    obtain rfl : input = [] := List.length_eq_zero.mp (Nat.le_zero.mp hlen)
    simp [splitSQLStatements, go, flushInto, trim] at hs
  | succ M ih =>
    intro input hlen s hs
    unfold splitSQLStatements at hs
    rcases go_run_cases input.length input initState [] [] le_rfl with
      ⟨stE, hscan, heq⟩ | ⟨w, rest, stE, hw, hscan, hstE, heq⟩
    · rw [heq, List.nil_append] at hs
      unfold flushInto at hs
      by_cases hni : trim input = []
      · rw [if_pos hni] at hs
        simp at hs
      · rw [if_neg hni] at hs
        simp at hs
        subst hs
        exact resplit_raw input [] stE hscan hni
    · rw [heq, go_acc, List.nil_append] at hs
      rw [List.mem_append] at hs
      rcases hs with hs | hs
      · unfold flushInto at hs
        by_cases hni : trim w = []
        · rw [if_pos hni] at hs
          simp at hs
        · rw [if_neg hni] at hs
          simp at hs
          subst hs
          exact resplit_raw w (';' :: rest) stE hscan hni
      · have hrl : rest.length ≤ M := by
          have := congrArg List.length hw
          simp at this
          omega
        exact ih rest hrl s hs

/-- C4: idempotence of the splitter.  Every statement `s` that
`splitSQLStatements` emits for any script re-splits, as its own standalone
input, to exactly the one-element list `[s]`. -/
theorem split_idempotent (input s : List Char) (hs : s ∈ splitSQLStatements input) :
    splitSQLStatements s = [s] :=
  c4_aux input.length input le_rfl s hs

theorem split_idempotent_witness :
    "ab".data ∈ splitSQLStatements "ab ; x".data ∧
      splitSQLStatements "ab".data = ["ab".data] :=
  ⟨by decide, split_idempotent "ab ; x".data "ab".data (by decide)⟩

end CrossDB
